import Mathlib

/-!
Shallow embedding of the OpenCilk tutorial programs:
`fib.c`, `qsort_wsp.c` (and its variant), the n-queens benchmark, and the
`ctimer.h` stopwatch/timespec library.  C `long` values are modelled as `Int`
(no arithmetic here approaches 2^63, and the claims quantify over mathematical
integers); arrays are modelled as `List Int`; the fork/join constructs
(`cilk_spawn`/`cilk_sync`/`cilk_scope`) are read as their serial elision,
i.e. plain calls, which is how the claims state them.
-/

namespace CilkTutorial

/- ==================== ctimer.h : timespec API ==================== -/

/-- `struct timespec`: seconds and nanoseconds, both C `long`/`time_t`,
modelled as `Int`. -/
structure Timespec where
  tv_sec : Int
  tv_nsec : Int
  deriving Repr, DecidableEq

/-- `_NSEC_PER_SEC = 1000 * 1000 * 1000` from the constants block of
`ctimer.h`. -/
def _NSEC_PER_SEC : Int := 1000 * 1000 * 1000

/-- `_USEC_PER_SEC = 1000 * 1000`. -/
def _USEC_PER_SEC : Int := 1000 * 1000

/-- `_MSEC_PER_SEC = 1000`. -/
def _MSEC_PER_SEC : Int := 1000

/-- `timespec_sub` from `ctimer.h` (lines 168-185): componentwise difference,
then borrow/carry fix-up only in the two cases `(sec > 0 && nsec < 0)` and
`(sec < 0 && nsec > 0)`. -/
def timespec_sub (t_end t_start : Timespec) : Timespec :=
  let ns := t_end.tv_nsec - t_start.tv_nsec
  let s := t_end.tv_sec - t_start.tv_sec
  if s > 0 ∧ ns < 0 then
    { tv_sec := s - 1, tv_nsec := ns + _NSEC_PER_SEC }
  else if s < 0 ∧ ns > 0 then
    { tv_sec := s + 1, tv_nsec := ns - _NSEC_PER_SEC }
  else
    { tv_sec := s, tv_nsec := ns }

/-- `timespec_add` from `ctimer.h` (lines 192-204): componentwise sum, then a
single carry when the nanoseconds reach `_NSEC_PER_SEC`. -/
def timespec_add (t1 t2 : Timespec) : Timespec :=
  let ns := t1.tv_nsec + t2.tv_nsec
  let s := t1.tv_sec + t2.tv_sec
  if ns ≥ _NSEC_PER_SEC then
    { tv_sec := s + 1, tv_nsec := ns - _NSEC_PER_SEC }
  else
    { tv_sec := s, tv_nsec := ns }

/-- `timespec_msec`: `t.tv_sec * _MSEC_PER_SEC + t.tv_nsec / _USEC_PER_SEC`,
with C's truncating (toward-zero) division. -/
def timespec_msec (t : Timespec) : Int :=
  t.tv_sec * _MSEC_PER_SEC + Int.tdiv t.tv_nsec _USEC_PER_SEC

/-- `timespec_usec`: `t.tv_sec * _USEC_PER_SEC + t.tv_nsec / _MSEC_PER_SEC`,
with C's truncating (toward-zero) division. -/
def timespec_usec (t : Timespec) : Int :=
  t.tv_sec * _USEC_PER_SEC + Int.tdiv t.tv_nsec _MSEC_PER_SEC

/-- `timespec_nsec`: `t.tv_sec * _NSEC_PER_SEC + t.tv_nsec`. -/
def timespec_nsec (t : Timespec) : Int :=
  t.tv_sec * _NSEC_PER_SEC + t.tv_nsec

/-- A `timespec` is valid when its nanoseconds lie in `[0, 10^9)`, as
`clock_gettime` guarantees. -/
def Timespec.Valid (t : Timespec) : Prop :=
  0 ≤ t.tv_nsec ∧ t.tv_nsec < _NSEC_PER_SEC

instance (t : Timespec) : Decidable t.Valid := by
  unfold Timespec.Valid; infer_instance

/-- Total duration denoted by a timespec, in nanoseconds. -/
def Timespec.total (t : Timespec) : Int :=
  t.tv_sec * _NSEC_PER_SEC + t.tv_nsec

/- ==================== ctimer.h : stopwatch API ==================== -/

/-- `ctimer_t`: start, end and elapsed timespecs.  The `end` field is named
`end_` because `end` is a Lean keyword. -/
structure Ctimer where
  start : Timespec
  end_ : Timespec
  elapsed : Timespec
  deriving Repr, DecidableEq

/-- `ctimer_measure`: `elapsed = end - start`. -/
def ctimer_measure (t : Ctimer) : Ctimer :=
  { t with elapsed := timespec_sub t.end_ t.start }

/-- `ctimer_lap`: `elapsed += end - start`, computed as
`timespec_add(&t->elapsed, t->elapsed, t->end)` followed by
`timespec_sub(&t->elapsed, t->elapsed, t->start)`. -/
def ctimer_lap (t : Ctimer) : Ctimer :=
  let t1 : Ctimer := { t with elapsed := timespec_add t.elapsed t.end_ }
  { t1 with elapsed := timespec_sub t1.elapsed t1.start }

/-- `ctimer_reset`: `t->elapsed = (struct timespec){0}`. -/
def ctimer_reset (t : Ctimer) : Ctimer :=
  { t with elapsed := { tv_sec := 0, tv_nsec := 0 } }

/- ==================== fib.c ==================== -/

/-- `fib` from `fib.c` (serial elision of `cilk_spawn`/`cilk_sync`):
`if (n < 2) return n; x = fib(n-1); y = fib(n-2); return x + y;`.
C `long` is modelled as `Int`. -/
def fib (n : Int) : Int :=
  if n < 2 then n
  else fib (n - 1) + fib (n - 2)
termination_by n.toNat
decreasing_by
  · omega
  · omega

/- ==================== nqueens ==================== -/

/-- Inner loop of `ok` (the j-loop): checks queen value `p` against the later
queens `rest`, where `d` is the current column distance `j - i`; returns
`false` at the first conflict `q == p || q == p - (j-i) || q == p + (j-i)`. -/
def okFrom (p : Int) (d : Int) : List Int → Bool
  | [] => true
  | q :: rest =>
    if q == p || q == p - d || q == p + d then false
    else okFrom p (d + 1) rest

/-- `ok (n, a)` from the n-queens benchmark: returns `true` iff no two of the
`n` queen positions in `a` conflict (same value, or same value offset by the
index distance, i.e. same diagonal).  The C parameter `n` is the length of
the modelled list. -/
def ok : List Int → Bool
  | [] => true
  | p :: rest => okFrom p 1 rest && ok rest

/-- `nqueens (n, j, a)` with the fuel argument making the termination measure
`n - j` explicit: every call reachable from `nqueens n 0 []` has `j ≤ n`, so
the guard `n == j` always fires before the fuel runs out and the fuel case
`0` with `n ≠ j` is never taken.  `b = a ++ [i]` models
`memcpy(b, a, j); b[j] = i;`, and the final `sum` models accumulating the
`count` array. -/
def nqueensF (n : Nat) : Nat → Nat → List Int → Int
  | fuel, j, a =>
    if n == j then 1
    else match fuel with
      | 0 => 0
      | fuel + 1 =>
        ((List.range n).map (fun (i : Nat) =>
          let b := a ++ [((i : Nat) : Int)]
          if ok b then nqueensF n fuel (j + 1) b else 0)).sum

/-- `nqueens (n, j, a)` from the n-queens benchmark (serial elision of the
`cilk_spawn` loop). -/
def nqueens (n j : Nat) (a : List Int) : Int := nqueensF n (n - j) j a

/- ==================== qsort_wsp.c ==================== -/

/-- The loop of `partition(begin, end, pivot)` from `qsort_wsp.c`, acting on
the window `A[begin..end)` represented as a list (second argument), with the
already-placed lower region `pre` (`A[..begin)`, elements `< pivot`) and
upper region `post` (`A[end..)`, elements `>= pivot`) as accumulators.
`*begin < pivot` advances `begin` (the window head moves to `pre`); otherwise
`end--; swap(begin, end);` moves the window head to the front of `post` and
brings the window's last element to its front. -/
def partitionGo (pivot : Int) : List Int → List Int → List Int → List Int × List Int
  | pre, [], post => (pre, post)
  | pre, x :: rest, post =>
    if x < pivot then
      partitionGo pivot (pre ++ [x]) rest post
    else
      match rest with
      | [] => (pre, x :: post)
      | y :: ys =>
        partitionGo pivot pre
          ((y :: ys).getLast (List.cons_ne_nil y ys) :: (y :: ys).dropLast)
          (x :: post)
termination_by _ w _ => w.length
decreasing_by
  · simp
  · simp [List.length_dropLast]

/-- `partition(begin, end, pivot)`: on return the segment holds
`pre ++ post` and the returned pointer is `begin + pre.length`. -/
def partition (w : List Int) (pivot : Int) : List Int × List Int :=
  partitionGo pivot [] w []

/-- The two segments produced by the partition loop are a permutation of the
incoming segments: the loop only moves elements around. -/
lemma partitionGo_perm (pivot : Int) (pre w post : List Int) :
    ((partitionGo pivot pre w post).1 ++ (partitionGo pivot pre w post).2).Perm
      (pre ++ w ++ post) := by
  induction pre, w, post using partitionGo.induct pivot with
  | case1 pre post =>
      simp [partitionGo]
  | case2 pre x rest post hx ih =>
      rw [partitionGo.eq_def]
      simp only [if_pos hx]
      simpa [List.append_assoc] using ih
  | case3 pre x post hx =>
      rw [partitionGo.eq_def]
      simp only [if_neg hx]
      simp [List.append_assoc]
  | case4 pre x post hx y ys ih =>
      rw [partitionGo.eq_def]
      simp only [if_neg hx]
      refine ih.trans ?_
      rw [List.append_assoc, List.append_assoc]
      refine List.Perm.append_left pre ?_
      have h1 : List.Perm
          ((y :: ys).getLast (List.cons_ne_nil y ys) :: (y :: ys).dropLast)
          ((y :: ys).dropLast ++ [(y :: ys).getLast (List.cons_ne_nil y ys)]) :=
        (List.perm_append_singleton _ _).symm
      have h2 := List.Perm.append_right (x :: post) h1
      rw [List.dropLast_append_getLast (List.cons_ne_nil y ys)] at h2
      exact h2.trans List.perm_middle

/-- Every element the partition loop puts in the lower segment was already
there or is `< pivot`; every element it puts in the upper segment was already
there or is `≥ pivot`. -/
lemma partitionGo_mem (pivot : Int) (pre w post : List Int) :
    (∀ z ∈ (partitionGo pivot pre w post).1, z ∈ pre ∨ z < pivot) ∧
    (∀ z ∈ (partitionGo pivot pre w post).2, z ∈ post ∨ pivot ≤ z) := by
  induction pre, w, post using partitionGo.induct pivot with
  | case1 pre post =>
      rw [partitionGo.eq_def]
      exact ⟨fun z hz => Or.inl hz, fun z hz => Or.inl hz⟩
  | case2 pre x rest post hx ih =>
      rw [partitionGo.eq_def]
      simp only [if_pos hx]
      refine ⟨fun z hz => ?_, ih.2⟩
      rcases ih.1 z hz with h | h
      · rcases List.mem_append.mp h with h | h
        · exact Or.inl h
        · right
          rw [List.mem_singleton.mp h]
          exact hx
      · exact Or.inr h
  | case3 pre x post hx =>
      rw [partitionGo.eq_def]
      simp only [if_neg hx]
      refine ⟨fun z hz => Or.inl hz, fun z hz => ?_⟩
      rcases List.mem_cons.mp hz with h | h
      · right
        rw [h]
        exact not_lt.mp hx
      · exact Or.inl h
  | case4 pre x post hx y ys ih =>
      rw [partitionGo.eq_def]
      simp only [if_neg hx]
      refine ⟨ih.1, fun z hz => ?_⟩
      rcases ih.2 z hz with h | h
      · rcases List.mem_cons.mp h with h | h
        · right
          rw [h]
          exact not_lt.mp hx
        · exact Or.inl h
      · exact Or.inr h

/-- `partition` permutes the window: `pre ++ post` is a permutation of `w`. -/
lemma partition_perm (w : List Int) (pivot : Int) :
    ((partition w pivot).1 ++ (partition w pivot).2).Perm w := by
  simpa using partitionGo_perm pivot [] w []

/-- The sizes of the two segments sum to the window size (so the returned
pointer `begin + pre.length` satisfies `begin ≤ m ≤ end`). -/
lemma partition_length (w : List Int) (pivot : Int) :
    (partition w pivot).1.length + (partition w pivot).2.length = w.length := by
  have h := (partition_perm w pivot).length_eq
  simpa using h

/-- Every element of the lower segment is `< pivot`. -/
lemma partition_mem_lt (w : List Int) (pivot : Int) :
    ∀ z ∈ (partition w pivot).1, z < pivot := by
  intro z hz
  rcases (partitionGo_mem pivot [] w []).1 z hz with h | h
  · simp at h
  · exact h

/-- Every element of the upper segment is `≥ pivot`. -/
lemma partition_mem_ge (w : List Int) (pivot : Int) :
    ∀ z ∈ (partition w pivot).2, pivot ≤ z := by
  intro z hz
  rcases (partitionGo_mem pivot [] w []).2 z hz with h | h
  · simp at h
  · exact h

/-- The lower segment is no longer than the window. -/
lemma partition_fst_le (w : List Int) (pivot : Int) :
    (partition w pivot).1.length ≤ w.length := by
  have h := partition_length w pivot
  omega

/-- The upper segment is no longer than the window. -/
lemma partition_snd_le (w : List Int) (pivot : Int) :
    (partition w pivot).2.length ≤ w.length := by
  have h := partition_length w pivot
  omega

/-- `sample_qsort(begin, end)` from `qsort_wsp.c` (serial elision of the
`cilk_scope`/`cilk_spawn`).  On a nonempty segment: take the last element as
pivot, partition the rest, swap the pivot with the first element of the upper
segment (`swap(end-1, middle)`), then sort `[begin, middle)` and
`[middle+1, end)`.  When the upper segment is `u :: us`, the swap leaves the
pivot at `middle` and the upper range holds `us ++ [u]`; when it is empty the
swap is a no-op and the upper range is empty. -/
def sample_qsort (s : List Int) : List Int :=
  match s with
  | [] => []
  | v :: vs =>
    match hp : (partition (v :: vs).dropLast ((v :: vs).getLast (List.cons_ne_nil v vs))).2 with
    | [] =>
        sample_qsort (partition (v :: vs).dropLast ((v :: vs).getLast (List.cons_ne_nil v vs))).1
          ++ [(v :: vs).getLast (List.cons_ne_nil v vs)]
    | u :: us =>
        sample_qsort (partition (v :: vs).dropLast ((v :: vs).getLast (List.cons_ne_nil v vs))).1
          ++ (v :: vs).getLast (List.cons_ne_nil v vs) :: sample_qsort (us ++ [u])
termination_by s.length
decreasing_by
  · exact lt_of_le_of_lt (partition_fst_le _ _)
      (by simp only [List.length_dropLast, List.length_cons]; omega)
  · exact lt_of_le_of_lt (partition_fst_le _ _)
      (by simp only [List.length_dropLast, List.length_cons]; omega)
  · have h2 := congrArg List.length hp
    simp only [List.length_cons] at h2
    have h3 := h2.symm.le.trans (partition_snd_le _ _)
    simp only [List.length_dropLast, List.length_cons] at h3
    simp only [List.length_append, List.length_cons, List.length_nil]
    omega

/- ==================== timespec helper lemmas ==================== -/

/-- The single carry in `timespec_add` preserves the denoted total duration. -/
lemma timespec_add_total (t1 t2 : Timespec) :
    (timespec_add t1 t2).total = t1.total + t2.total := by
  obtain ⟨a, b⟩ := t1
  obtain ⟨c, d⟩ := t2
  simp only [timespec_add, Timespec.total, _NSEC_PER_SEC]
  split_ifs <;> ring

/-- Both borrow/carry fix-ups in `timespec_sub` preserve the denoted total
duration. -/
lemma timespec_sub_total (t_end t_start : Timespec) :
    (timespec_sub t_end t_start).total = t_end.total - t_start.total := by
  obtain ⟨a, b⟩ := t_end
  obtain ⟨c, d⟩ := t_start
  simp only [timespec_sub, Timespec.total, _NSEC_PER_SEC]
  split_ifs <;> ring

/-- A lap never changes the denoted total other than by `end - start`. -/
lemma ctimer_lap_elapsed_total (t : Ctimer) :
    (ctimer_lap t).elapsed.total = t.elapsed.total + (t.end_.total - t.start.total) := by
  simp only [ctimer_lap]
  rw [timespec_sub_total, timespec_add_total]
  ring

/-- Under the C6 hypotheses a lap keeps the elapsed timespec canonical:
nanoseconds stay in `[0, 10^9)` and the denoted total stays nonnegative. -/
lemma ctimer_lap_elapsed_valid (t : Ctimer) (hs : t.start.Valid) (he : t.end_.Valid)
    (hel : t.elapsed.Valid) (h0 : 0 ≤ t.elapsed.total) (hse : t.start.total ≤ t.end_.total) :
    (ctimer_lap t).elapsed.Valid ∧ 0 ≤ (ctimer_lap t).elapsed.total := by
  obtain ⟨⟨ss, sn⟩, ⟨es, en⟩, ⟨ls, ln⟩⟩ := t
  simp only [ctimer_lap, timespec_add, timespec_sub, Timespec.Valid, Timespec.total,
    _NSEC_PER_SEC] at *
  split_ifs <;> dsimp only at * <;> constructor <;> omega

/-- Usage harness for the accumulation part of C6: after each measured
interval `(s, e)`, `ctimer_start`/`ctimer_stop` store the clock readings `s`
and `e` in the stopwatch and `ctimer_lap` accumulates. -/
def lapRuns (t : Ctimer) (ps : List (Timespec × Timespec)) : Ctimer :=
  ps.foldl (fun acc p => ctimer_lap { acc with start := p.1, end_ := p.2 }) t

/-- Accumulation invariant for `lapRuns`. -/
lemma lapRuns_total (ps : List (Timespec × Timespec)) : ∀ t : Ctimer,
    t.elapsed.Valid → 0 ≤ t.elapsed.total →
    (∀ p ∈ ps, p.1.Valid ∧ p.2.Valid ∧ p.1.total ≤ p.2.total) →
    (lapRuns t ps).elapsed.total
      = t.elapsed.total + (ps.map (fun p => p.2.total - p.1.total)).sum := by
  induction ps with
  | nil =>
      intro t _ _ _
      simp [lapRuns]
  | cons p ps ih =>
      intro t hv h0 hall
      have hp := hall p (List.mem_cons_self p ps)
      have hlap := ctimer_lap_elapsed_valid { t with start := p.1, end_ := p.2 }
        hp.1 hp.2.1 hv h0 hp.2.2
      have hrec := ih (ctimer_lap { t with start := p.1, end_ := p.2 })
        hlap.1 hlap.2 (fun q hq => hall q (List.mem_cons_of_mem p hq))
      have hstep := ctimer_lap_elapsed_total { t with start := p.1, end_ := p.2 }
      simp only [lapRuns, List.foldl_cons] at hrec ⊢
      rw [hrec, hstep]
      simp only [List.map_cons, List.sum_cons]
      ring

/- ==================== claim theorems ==================== -/

/-- Helper for C1: on the nonnegative integers the C recursion computes the
mathematical Fibonacci sequence. -/
lemma fib_nat (k : Nat) : fib (k : Int) = Nat.fib k := by
  induction k using Nat.strong_induction_on with
  | _ k ih =>
    match k with
    | 0 =>
        rw [fib.eq_def]
        norm_num
    | 1 =>
        rw [fib.eq_def]
        norm_num
    | (m + 2) =>
        rw [fib.eq_def]
        have h2 : ¬((m + 2 : Nat) : Int) < 2 := by push_cast; omega
        rw [if_neg h2]
        have e1 : ((m + 2 : Nat) : Int) - 1 = ((m + 1 : Nat) : Int) := by push_cast; ring
        have e2 : ((m + 2 : Nat) : Int) - 2 = ((m : Nat) : Int) := by push_cast; ring
        rw [e1, e2, ih (m + 1) (by omega), ih m (by omega), Nat.fib_add_two]
        push_cast
        ring

/-- C1: For every integer `n ≥ 0`, `fib` (the serial elision of the
`cilk_spawn`/`cilk_sync` code in `fib.c`) returns the sequential Fibonacci
value: `n` when `n < 2` and `fib (n-1) + fib (n-2)` otherwise — i.e. the
mathematical Fibonacci number of `n`. -/
theorem claim_C1_fib_sequential (n : Int) (h : 0 ≤ n) : fib n = Nat.fib n.toNat := by
  have hk := fib_nat n.toNat
  rwa [Int.toNat_of_nonneg h] at hk

/-- Witness for C1 at `n = 10` (the program default input). -/
theorem claim_C1_witness : (0 : Int) ≤ 10 ∧ fib 10 = Nat.fib (10 : Int).toNat :=
  ⟨by norm_num, claim_C1_fib_sequential 10 (by norm_num)⟩

/-- C8: `ctimer_reset` zeroes both components of the `elapsed` field and
leaves `start` and `end` unchanged. -/
theorem claim_C8_reset (t : Ctimer) :
    (ctimer_reset t).elapsed.tv_sec = 0 ∧ (ctimer_reset t).elapsed.tv_nsec = 0 ∧
    (ctimer_reset t).start = t.start ∧ (ctimer_reset t).end_ = t.end_ :=
  ⟨rfl, rfl, rfl, rfl⟩

/-- C7: with `tv_sec ≥ 0` and valid nanoseconds, `timespec_msec`,
`timespec_usec` and `timespec_nsec` are the floor of the total nanosecond
duration divided by `10^6`, `10^3` and `1` respectively (Lean's `/` on `Int`
is floor division; all quantities here are nonnegative, so C's toward-zero
truncation agrees and never rounds up). -/
theorem claim_C7_truncation (t : Timespec) (h0 : 0 ≤ t.tv_sec) (hv : t.Valid) :
    timespec_msec t = timespec_nsec t / 1000000 ∧
    timespec_usec t = timespec_nsec t / 1000 ∧
    timespec_nsec t = t.tv_sec * 1000000000 + t.tv_nsec := by
  obtain ⟨a, b⟩ := t
  obtain ⟨hb1, hb2⟩ := hv
  simp only [timespec_msec, timespec_usec, timespec_nsec, _MSEC_PER_SEC, _USEC_PER_SEC,
    _NSEC_PER_SEC] at *
  rw [Int.tdiv_eq_ediv hb1 (by norm_num), Int.tdiv_eq_ediv hb1 (by norm_num)]
  refine ⟨?_, ?_, rfl⟩ <;> omega

/-- Witness for C7 at `t = ⟨3, 123456789⟩`. -/
theorem claim_C7_witness :
    ((0 : Int) ≤ 3 ∧ Timespec.Valid ⟨3, 123456789⟩) ∧
    (timespec_msec ⟨3, 123456789⟩ = timespec_nsec ⟨3, 123456789⟩ / 1000000 ∧
     timespec_usec ⟨3, 123456789⟩ = timespec_nsec ⟨3, 123456789⟩ / 1000 ∧
     timespec_nsec ⟨3, 123456789⟩ = 3 * 1000000000 + 123456789) :=
  ⟨by decide, claim_C7_truncation ⟨3, 123456789⟩ (by decide) (by decide)⟩

/-- Counterexample to C3 as stated: with `t_end = (0 s, 5·10^8 ns)` and
`t_start = (1 s, 0 ns)` (both valid, difference negative), subtracting and
adding back yields `(1 s, -5·10^8 ns)`, not `t_end` field for field. -/
theorem claim_C3_counterexample :
    Timespec.Valid ⟨0, 500000000⟩ ∧ Timespec.Valid ⟨1, 0⟩ ∧
    timespec_add (timespec_sub ⟨0, 500000000⟩ ⟨1, 0⟩) ⟨1, 0⟩ ≠ ⟨0, 500000000⟩ := by
  decide

/-- C3 (amended): the round trip always reconstructs the denoted total
duration of `t_end`, and it reconstructs `t_end` exactly, field for field,
for every valid pair except those with `t_end.tv_sec < t_start.tv_sec` and
`t_end.tv_nsec > t_start.tv_nsec` (then the result is the same duration
represented as `(t_end.tv_sec + 1, t_end.tv_nsec - 10^9)`). -/
theorem claim_C3_roundtrip (t_end t_start : Timespec)
    (he : t_end.Valid) (hs : t_start.Valid) :
    (timespec_add (timespec_sub t_end t_start) t_start).total = t_end.total ∧
    (¬(t_end.tv_sec < t_start.tv_sec ∧ t_start.tv_nsec < t_end.tv_nsec) →
      timespec_add (timespec_sub t_end t_start) t_start = t_end) := by
  constructor
  · rw [timespec_add_total, timespec_sub_total]
    ring
  · intro hne
    obtain ⟨a, b⟩ := t_end
    obtain ⟨c, d⟩ := t_start
    simp only [timespec_sub, timespec_add, Timespec.Valid, _NSEC_PER_SEC] at *
    split_ifs <;> dsimp only at * <;> simp only [Timespec.mk.injEq] <;> constructor <;> omega

/-- Witness for C3 (amended) at `t_end = (5 s, 300 ns)`,
`t_start = (2 s, 100 ns)`. -/
theorem claim_C3_witness :
    (Timespec.Valid ⟨5, 300⟩ ∧ Timespec.Valid ⟨2, 100⟩) ∧
    ((timespec_add (timespec_sub ⟨5, 300⟩ ⟨2, 100⟩) ⟨2, 100⟩).total = Timespec.total ⟨5, 300⟩ ∧
     (¬((5 : Int) < 2 ∧ (100 : Int) < 300) →
       timespec_add (timespec_sub ⟨5, 300⟩ ⟨2, 100⟩) ⟨2, 100⟩ = ⟨5, 300⟩)) :=
  ⟨by decide, claim_C3_roundtrip ⟨5, 300⟩ ⟨2, 100⟩ (by decide) (by decide)⟩

/-- Counterexample to C4 as stated: with `t_end = (0, 0)` and
`t_start = (0, 1)` the componentwise difference has a negative nanoseconds
component, yet `timespec_sub` performs no borrow (the code requires the
seconds difference to be positive): the result is `(0, -1)`, not
`(-1, 999999999)`. -/
theorem claim_C4_counterexample :
    Timespec.Valid ⟨0, 0⟩ ∧ Timespec.Valid ⟨0, 1⟩ ∧
    (Timespec.tv_nsec ⟨0, 0⟩ - Timespec.tv_nsec ⟨0, 1⟩ < 0) ∧
    timespec_sub ⟨0, 0⟩ ⟨0, 1⟩ ≠
      ⟨Timespec.tv_sec ⟨0, 0⟩ - Timespec.tv_sec ⟨0, 1⟩ - 1,
       Timespec.tv_nsec ⟨0, 0⟩ - Timespec.tv_nsec ⟨0, 1⟩ + _NSEC_PER_SEC⟩ := by
  decide

/-- C4 (amended): `timespec_sub` performs the borrow (seconds decremented,
`10^9` added to nanoseconds) exactly when the seconds difference is positive
and the nanoseconds difference negative — not for every negative nanoseconds
difference — and both fix-ups preserve the denoted total; the carry in
`timespec_add` is as the claim states it and yields valid nanoseconds. -/
theorem claim_C4_normalization (t_end t_start t1 t2 : Timespec)
    (h1 : t1.Valid) (h2 : t2.Valid) :
    (timespec_sub t_end t_start).total = t_end.total - t_start.total ∧
    ((0 < t_end.tv_sec - t_start.tv_sec ∧ t_end.tv_nsec - t_start.tv_nsec < 0) →
      (timespec_sub t_end t_start).tv_sec = t_end.tv_sec - t_start.tv_sec - 1 ∧
      (timespec_sub t_end t_start).tv_nsec
        = t_end.tv_nsec - t_start.tv_nsec + _NSEC_PER_SEC) ∧
    (timespec_add t1 t2).total = t1.total + t2.total ∧
    ((t1.tv_nsec + t2.tv_nsec ≥ _NSEC_PER_SEC) →
      (timespec_add t1 t2).tv_sec = t1.tv_sec + t2.tv_sec + 1 ∧
      (timespec_add t1 t2).tv_nsec = t1.tv_nsec + t2.tv_nsec - _NSEC_PER_SEC) ∧
    (timespec_add t1 t2).Valid := by
  refine ⟨timespec_sub_total t_end t_start, ?_, timespec_add_total t1 t2, ?_, ?_⟩
  · intro hcond
    obtain ⟨a, b⟩ := t_end
    obtain ⟨c, d⟩ := t_start
    simp only [timespec_sub, _NSEC_PER_SEC] at *
    rw [if_pos ⟨hcond.1, hcond.2⟩]
    exact ⟨rfl, rfl⟩
  · intro hcond
    obtain ⟨a, b⟩ := t1
    obtain ⟨c, d⟩ := t2
    simp only [timespec_add, _NSEC_PER_SEC] at *
    rw [if_pos hcond]
    exact ⟨rfl, rfl⟩
  · obtain ⟨a, b⟩ := t1
    obtain ⟨c, d⟩ := t2
    simp only [timespec_add, Timespec.Valid, _NSEC_PER_SEC] at *
    split_ifs <;> dsimp only at * <;> constructor <;> omega

/-- Witness for C4 (amended) at `t_end = (3, 2)`, `t_start = (1, 5)`,
`t1 = (0, 600000000)`, `t2 = (0, 700000000)`. -/
theorem claim_C4_witness :
    (Timespec.Valid ⟨0, 600000000⟩ ∧ Timespec.Valid ⟨0, 700000000⟩) ∧
    ((timespec_sub ⟨3, 2⟩ ⟨1, 5⟩).total = Timespec.total ⟨3, 2⟩ - Timespec.total ⟨1, 5⟩ ∧
     ((0 < (3 : Int) - 1 ∧ (2 : Int) - 5 < 0) →
       (timespec_sub ⟨3, 2⟩ ⟨1, 5⟩).tv_sec = 3 - 1 - 1 ∧
       (timespec_sub ⟨3, 2⟩ ⟨1, 5⟩).tv_nsec = 2 - 5 + _NSEC_PER_SEC) ∧
     (timespec_add ⟨0, 600000000⟩ ⟨0, 700000000⟩).total
       = Timespec.total ⟨0, 600000000⟩ + Timespec.total ⟨0, 700000000⟩ ∧
     (((600000000 : Int) + 700000000 ≥ _NSEC_PER_SEC) →
       (timespec_add ⟨0, 600000000⟩ ⟨0, 700000000⟩).tv_sec = 0 + 0 + 1 ∧
       (timespec_add ⟨0, 600000000⟩ ⟨0, 700000000⟩).tv_nsec
         = 600000000 + 700000000 - _NSEC_PER_SEC) ∧
     (timespec_add ⟨0, 600000000⟩ ⟨0, 700000000⟩).Valid) :=
  ⟨by decide,
   claim_C4_normalization ⟨3, 2⟩ ⟨1, 5⟩ ⟨0, 600000000⟩ ⟨0, 700000000⟩ (by decide) (by decide)⟩

/-- C6: with valid `start`, `end` and `elapsed` fields, a nonnegative
elapsed duration and `start ≤ end`, `ctimer_lap` sets the elapsed duration
to exactly `elapsed + (end - start)` (and keeps it canonical); consequently,
starting from `ctimer_reset`, any sequence of measured stop/lap pairs leaves
the elapsed duration equal to the sum of the individual `end - start`
intervals. -/
theorem claim_C6_lap_accumulates (t : Ctimer) (ps : List (Timespec × Timespec))
    (hs : t.start.Valid) (he : t.end_.Valid) (hel : t.elapsed.Valid)
    (h0 : 0 ≤ t.elapsed.total) (hse : t.start.total ≤ t.end_.total)
    (hps : ∀ p ∈ ps, p.1.Valid ∧ p.2.Valid ∧ p.1.total ≤ p.2.total) :
    (ctimer_lap t).elapsed.total = t.elapsed.total + (t.end_.total - t.start.total) ∧
    (ctimer_lap t).elapsed.Valid ∧
    (lapRuns (ctimer_reset t) ps).elapsed.total
      = (ps.map (fun p => p.2.total - p.1.total)).sum := by
  refine ⟨ctimer_lap_elapsed_total t, (ctimer_lap_elapsed_valid t hs he hel h0 hse).1, ?_⟩
  have hrt : (ctimer_reset t).elapsed.total = 0 := rfl
  have h := lapRuns_total ps (ctimer_reset t) (by constructor <;> norm_num [ctimer_reset, _NSEC_PER_SEC])
    (by rw [hrt]) hps
  rw [h, hrt, zero_add]

/-- Witness for C6 with two measured intervals of 5 ns and
1.5 s. -/
theorem claim_C6_witness :
    (Timespec.Valid ⟨0, 2⟩ ∧ Timespec.Valid ⟨0, 7⟩ ∧ Timespec.Valid ⟨4, 0⟩ ∧
     (0 : Int) ≤ Timespec.total ⟨4, 0⟩ ∧ Timespec.total ⟨0, 2⟩ ≤ Timespec.total ⟨0, 7⟩) ∧
    ((ctimer_lap ⟨⟨0, 2⟩, ⟨0, 7⟩, ⟨4, 0⟩⟩).elapsed.total
        = Timespec.total ⟨4, 0⟩ + (Timespec.total ⟨0, 7⟩ - Timespec.total ⟨0, 2⟩) ∧
     (ctimer_lap ⟨⟨0, 2⟩, ⟨0, 7⟩, ⟨4, 0⟩⟩).elapsed.Valid ∧
     (lapRuns (ctimer_reset ⟨⟨0, 2⟩, ⟨0, 7⟩, ⟨4, 0⟩⟩)
         [(⟨0, 0⟩, ⟨0, 5⟩), (⟨1, 0⟩, ⟨2, 500000000⟩)]).elapsed.total
       = ([(⟨0, 0⟩, ⟨0, 5⟩), (⟨1, 0⟩, ⟨2, 500000000⟩)].map
           (fun p : Timespec × Timespec => p.2.total - p.1.total)).sum) :=
  ⟨by decide,
   claim_C6_lap_accumulates ⟨⟨0, 2⟩, ⟨0, 7⟩, ⟨4, 0⟩⟩
     [(⟨0, 0⟩, ⟨0, 5⟩), (⟨1, 0⟩, ⟨2, 500000000⟩)]
     (by decide) (by decide) (by decide) (by decide) (by decide) (by decide)⟩

/-- C10: `partition(begin, end, p)` permutes the segment and splits it at
`m = begin + (lower).length` (so `begin ≤ m ≤ end`): everything in
`[begin, m)` is `< p` and everything in `[m, end)` is `≥ p`. -/
theorem claim_C10_partition (w : List Int) (p : Int) :
    (partition w p).1.length + (partition w p).2.length = w.length ∧
    ((partition w p).1 ++ (partition w p).2).Perm w ∧
    (∀ z ∈ (partition w p).1, z < p) ∧
    (∀ z ∈ (partition w p).2, p ≤ z) :=
  ⟨partition_length w p, partition_perm w p, partition_mem_lt w p, partition_mem_ge w p⟩

/-- Unfolding: the empty segment sorts to itself. -/
lemma sample_qsort_nil : sample_qsort [] = [] := by
  rw [sample_qsort.eq_def]

/-- Unfolding of `sample_qsort` on a nonempty segment whose upper partition
is empty. -/
lemma sample_qsort_cons_nil (v : Int) (vs : List Int)
    (hp : (partition (v :: vs).dropLast ((v :: vs).getLast (List.cons_ne_nil v vs))).2 = []) :
    sample_qsort (v :: vs)
      = sample_qsort (partition (v :: vs).dropLast ((v :: vs).getLast (List.cons_ne_nil v vs))).1
        ++ [(v :: vs).getLast (List.cons_ne_nil v vs)] := by
  rw [sample_qsort.eq_def]
  split
  · rename_i heq
    simp at heq
  · rename_i ws u us heq
    injection heq with h1 h2
    subst h1
    subst h2
    split
    · rfl
    · rename_i u' us' heq2
      rw [hp] at heq2
      cases heq2

/-- Unfolding of `sample_qsort` on a nonempty segment whose upper partition
is `u :: us`. -/
lemma sample_qsort_cons_cons (v u : Int) (vs us : List Int)
    (hp : (partition (v :: vs).dropLast ((v :: vs).getLast (List.cons_ne_nil v vs))).2 = u :: us) :
    sample_qsort (v :: vs)
      = sample_qsort (partition (v :: vs).dropLast ((v :: vs).getLast (List.cons_ne_nil v vs))).1
        ++ (v :: vs).getLast (List.cons_ne_nil v vs) :: sample_qsort (us ++ [u]) := by
  rw [sample_qsort.eq_def]
  split
  · rename_i heq
    simp at heq
  · rename_i ws u' us' heq
    injection heq with h1 h2
    subst h1
    subst h2
    split
    · rename_i heq2
      rw [hp] at heq2
      cases heq2
    · rename_i u2 us2 heq2
      rw [hp] at heq2
      injection heq2 with h3 h4
      subst h3
      subst h4
      rfl

/-- C2: `sample_qsort` terminates (it is a total function of the modelled
segment) and returns a non-decreasing permutation of its input. -/
theorem claim_C2_sample_qsort_sorts (s : List Int) :
    (sample_qsort s).Perm s ∧ (sample_qsort s).Sorted (· ≤ ·) := by
  induction s using sample_qsort.induct with
  | case1 =>
      rw [sample_qsort_nil]
      exact ⟨List.Perm.refl [], List.sorted_nil⟩
  | case2 v vs hp ih =>
      obtain ⟨ihp, ihs⟩ := ih
      rw [sample_qsort_cons_nil v vs hp]
      have hpp := partition_perm (v :: vs).dropLast ((v :: vs).getLast (List.cons_ne_nil v vs))
      rw [hp, List.append_nil] at hpp
      constructor
      · have h1 := ihp.append
          (List.Perm.refl [(v :: vs).getLast (List.cons_ne_nil v vs)])
        have h2 := hpp.append
          (List.Perm.refl [(v :: vs).getLast (List.cons_ne_nil v vs)])
        have h3 := h1.trans h2
        rwa [List.dropLast_append_getLast (List.cons_ne_nil v vs)] at h3
      · rw [List.Sorted, List.pairwise_append]
        refine ⟨ihs, List.pairwise_singleton _ _, ?_⟩
        intro a ha b hb
        rw [List.mem_singleton] at hb
        subst hb
        exact le_of_lt (partition_mem_lt _ _ a (ihp.mem_iff.mp ha))
  | case3 v vs u us hp ih1 ih2 =>
      obtain ⟨ih1p, ih1s⟩ := ih1
      obtain ⟨ih2p, ih2s⟩ := ih2
      rw [sample_qsort_cons_cons v u vs us hp]
      have hpp := partition_perm (v :: vs).dropLast ((v :: vs).getLast (List.cons_ne_nil v vs))
      rw [hp] at hpp
      have hupper : ∀ b ∈ sample_qsort (us ++ [u]),
          (v :: vs).getLast (List.cons_ne_nil v vs) ≤ b := by
        intro b hb
        have hb2 : b ∈ us ++ [u] := ih2p.mem_iff.mp hb
        have hb3 : b ∈ u :: us := (List.perm_append_singleton u us).mem_iff.mp hb2
        rw [← hp] at hb3
        exact partition_mem_ge _ _ b hb3
      constructor
      · have h1 := ih1p.append (ih2p.cons ((v :: vs).getLast (List.cons_ne_nil v vs)))
        have h2 := List.Perm.append_left
          (partition (v :: vs).dropLast ((v :: vs).getLast (List.cons_ne_nil v vs))).1
          ((List.perm_append_singleton u us).cons ((v :: vs).getLast (List.cons_ne_nil v vs)))
        have h3 : ((partition (v :: vs).dropLast ((v :: vs).getLast (List.cons_ne_nil v vs))).1
              ++ (v :: vs).getLast (List.cons_ne_nil v vs) :: u :: us).Perm
            ((v :: vs).getLast (List.cons_ne_nil v vs)
              :: ((partition (v :: vs).dropLast ((v :: vs).getLast (List.cons_ne_nil v vs))).1
                  ++ u :: us)) := List.perm_middle
        have h4 := hpp.cons ((v :: vs).getLast (List.cons_ne_nil v vs))
        have h5 := (List.perm_append_singleton ((v :: vs).getLast (List.cons_ne_nil v vs))
          (v :: vs).dropLast).symm
        have h6 := ((((h1.trans h2).trans h3).trans h4).trans h5)
        rwa [List.dropLast_append_getLast (List.cons_ne_nil v vs)] at h6
      · rw [List.Sorted, List.pairwise_append]
        refine ⟨ih1s, ?_, ?_⟩
        · rw [List.pairwise_cons]
          exact ⟨hupper, ih2s⟩
        · intro a ha b hb
          have halt : a < (v :: vs).getLast (List.cons_ne_nil v vs) :=
            partition_mem_lt _ _ a (ih1p.mem_iff.mp ha)
          rcases List.mem_cons.mp hb with hb | hb
          · rw [hb]
            exact le_of_lt halt
          · exact le_of_lt (lt_of_lt_of_le halt (hupper b hb))

/- ==================== ctimer_print ==================== -/

/-- Decimal formatting core of the C library's `printf` integer conversions
(modelled here because `printf` is external to the repository): peel the
least-significant digit first, accumulating most-significant first. -/
def natDecAux : Nat → List Char → List Char
  | 0, acc => acc
  | n + 1, acc => natDecAux ((n + 1) / 10) (Nat.digitChar ((n + 1) % 10) :: acc)
decreasing_by omega

/-- Decimal digit string of a nonnegative integer, as `printf` prints it
(a single `'0'` for zero, no leading zeros otherwise). -/
def natDec (n : Nat) : List Char :=
  if n = 0 then ['0'] else natDecAux n []

/-- `printf("%ld", v)`. -/
def fmt_ld (v : Int) : List Char :=
  if v < 0 then '-' :: natDec v.natAbs else natDec v.natAbs

/-- `printf("%09ld", v)`: zero-padded to minimum field width 9, a sign
counting toward the width. -/
def fmt09ld (v : Int) : List Char :=
  if v < 0 then '-' :: (List.replicate (8 - (natDec v.natAbs).length) '0' ++ natDec v.natAbs)
  else List.replicate (9 - (natDec v.natAbs).length) '0' ++ natDec v.natAbs

/-- `ctimer_print(t, label)` from `ctimer.h` (lines 419-430), its output text
modelled as the list of characters written to `stdout`; `none` models a
`NULL` label pointer and the C test `label[0] != '\0'` is the emptiness test
on the modelled string. -/
def ctimer_print (t : Ctimer) (label : Option (List Char)) : List Char :=
  (match label with
   | some l => if l ≠ [] then "Time(".toList ++ l ++ ") = ".toList else "Time = ".toList
   | none => "Time = ".toList)
  ++ fmt_ld t.elapsed.tv_sec ++ '.' :: fmt09ld t.elapsed.tv_nsec ++ " sec\n".toList

/-- Value denoted by a decimal digit string (big-endian), with accumulator. -/
def decValAux (a : Nat) (l : List Char) : Nat :=
  l.foldl (fun a c => 10 * a + (c.toNat - 48)) a

/-- Value denoted by a decimal digit string (big-endian). -/
def decVal (l : List Char) : Nat := decValAux 0 l

lemma decValAux_eq (l : List Char) : ∀ a : Nat,
    decValAux a l = a * 10 ^ l.length + decVal l := by
  induction l with
  | nil => intro a; simp [decValAux, decVal]
  | cons c t ih =>
      intro a
      show decValAux (10 * a + (c.toNat - 48)) t = _
      rw [ih (10 * a + (c.toNat - 48))]
      have h2 : decVal (c :: t) = (c.toNat - 48) * 10 ^ t.length + decVal t := by
        show decValAux (10 * 0 + (c.toNat - 48)) t = _
        rw [ih (10 * 0 + (c.toNat - 48))]
        ring
      rw [h2]
      simp [List.length_cons, pow_succ]
      ring

lemma digitChar_toNat (d : Nat) (h : d < 10) : (Nat.digitChar d).toNat - 48 = d := by
  interval_cases d <;> rfl

lemma digitChar_isDigit (d : Nat) (h : d < 10) : (Nat.digitChar d).isDigit = true := by
  interval_cases d <;> rfl

/-- The digit accumulator computes positional decimal value. -/
lemma natDecAux_val (n : Nat) : ∀ acc : List Char,
    decVal (natDecAux n acc) = n * 10 ^ acc.length + decVal acc := by
  induction n using Nat.strong_induction_on with
  | _ n ih =>
    intro acc
    match n with
    | 0 => simp [natDecAux]
    | m + 1 =>
        rw [natDecAux]
        rw [ih ((m + 1) / 10) (Nat.div_lt_self (Nat.succ_pos m) (by norm_num)) _]
        have hd : decVal (Nat.digitChar ((m + 1) % 10) :: acc)
            = ((m + 1) % 10) * 10 ^ acc.length + decVal acc := by
          show decValAux (10 * 0 + ((Nat.digitChar ((m + 1) % 10)).toNat - 48)) acc = _
          rw [digitChar_toNat _ (Nat.mod_lt _ (by norm_num))]
          rw [decValAux_eq acc (10 * 0 + (m + 1) % 10)]
          ring
        rw [hd]
        have hqd : (m + 1) / 10 * 10 + (m + 1) % 10 = m + 1 := by omega
        calc (m + 1) / 10 * 10 ^ (Nat.digitChar ((m + 1) % 10) :: acc).length
              + ((m + 1) % 10 * 10 ^ acc.length + decVal acc)
            = ((m + 1) / 10 * 10 + (m + 1) % 10) * 10 ^ acc.length + decVal acc := by
              simp [List.length_cons, pow_succ]
              ring
          _ = (m + 1) * 10 ^ acc.length + decVal acc := by rw [hqd]

/-- A number below `10^k` prints in at most `k` digits. -/
lemma natDecAux_len (k : Nat) : ∀ (n : Nat) (acc : List Char), n < 10 ^ k →
    (natDecAux n acc).length ≤ k + acc.length := by
  induction k with
  | zero =>
      intro n acc hn
      interval_cases n
      simp [natDecAux]
  | succ k ih =>
      intro n acc hn
      match n with
      | 0 => simp [natDecAux]
      | m + 1 =>
          rw [natDecAux]
          have hdiv : (m + 1) / 10 < 10 ^ k := by
            rw [Nat.div_lt_iff_lt_mul (by norm_num)]
            calc m + 1 < 10 ^ (k + 1) := hn
              _ = 10 ^ k * 10 := by rw [pow_succ]
          have := ih ((m + 1) / 10) (Nat.digitChar ((m + 1) % 10) :: acc) hdiv
          simp only [List.length_cons] at this
          omega

/-- The digit accumulator only emits decimal digits. -/
lemma natDecAux_digits (n : Nat) : ∀ acc : List Char,
    (∀ c ∈ acc, c.isDigit = true) → ∀ c ∈ natDecAux n acc, c.isDigit = true := by
  induction n using Nat.strong_induction_on with
  | _ n ih =>
    intro acc hacc
    match n with
    | 0 => simpa [natDecAux] using hacc
    | m + 1 =>
        rw [natDecAux]
        refine ih ((m + 1) / 10) (Nat.div_lt_self (Nat.succ_pos m) (by norm_num)) _ ?_
        intro c hc
        rcases List.mem_cons.mp hc with hc | hc
        · rw [hc]
          exact digitChar_isDigit _ (Nat.mod_lt _ (by norm_num))
        · exact hacc c hc

lemma natDec_val (n : Nat) : decVal (natDec n) = n := by
  rw [natDec]
  split
  · subst n
    rfl
  · have h := natDecAux_val n []
    simpa using h

lemma natDec_digits (n : Nat) : ∀ c ∈ natDec n, c.isDigit = true := by
  rw [natDec]
  split
  · intro c hc
    rw [List.mem_singleton.mp hc]
    rfl
  · exact natDecAux_digits n [] (by intro c hc; cases hc)

lemma natDec_len_le (k n : Nat) (hk : 1 ≤ k) (h : n < 10 ^ k) : (natDec n).length ≤ k := by
  rw [natDec]
  split
  · simpa using hk
  · have := natDecAux_len k n [] h
    simpa using this

lemma decValAux_zero_replicate (m : Nat) : decValAux 0 (List.replicate m '0') = 0 := by
  induction m with
  | zero => rfl
  | succ m ih =>
      show decValAux (10 * 0 + ('0'.toNat - 48)) (List.replicate m '0') = 0
      simpa using ih

lemma decVal_replicate_append (m : Nat) (l : List Char) :
    decVal (List.replicate m '0' ++ l) = decVal l := by
  show List.foldl _ 0 (List.replicate m '0' ++ l) = decVal l
  rw [List.foldl_append]
  have h := decValAux_zero_replicate m
  rw [show List.foldl (fun a c => 10 * a + (c.toNat - 48)) 0 (List.replicate m '0')
    = decValAux 0 (List.replicate m '0') from rfl, h]
  rfl

/-- For a valid nanoseconds value, `%09ld` prints exactly 9 decimal digits,
zero-padded, denoting that value. -/
lemma fmt09ld_spec (v : Int) (h0 : 0 ≤ v) (h : v < 1000000000) :
    (fmt09ld v).length = 9 ∧ (∀ c ∈ fmt09ld v, c.isDigit = true) ∧
    decVal (fmt09ld v) = v.toNat := by
  rw [fmt09ld, if_neg (not_lt.mpr h0)]
  have habs : v.natAbs < 10 ^ 9 := by
    have : v.natAbs < 1000000000 := by omega
    simpa using this
  have hlen : (natDec v.natAbs).length ≤ 9 := natDec_len_le 9 _ (by norm_num) habs
  refine ⟨?_, ?_, ?_⟩
  · simp only [List.length_append, List.length_replicate]
    omega
  · intro c hc
    rcases List.mem_append.mp hc with hc | hc
    · rw [List.eq_of_mem_replicate hc]
      rfl
    · exact natDec_digits _ c hc
  · rw [decVal_replicate_append, natDec_val]
    omega

lemma fmt_ld_nonneg (v : Int) (h : 0 ≤ v) : fmt_ld v = natDec v.toNat := by
  rw [fmt_ld, if_neg (not_lt.mpr h)]
  congr 1
  omega

/-- C9: for a stopwatch with valid elapsed time, `ctimer_print` outputs
exactly one line `Time(<label>) = <sec>.<9-digit-fraction> sec` for a
non-`NULL`, nonempty label (newline-free, as a label line is), and
`Time = <sec>.<9-digit-fraction> sec` when the label is `NULL` or empty; the
fraction is exactly 9 zero-padded decimal digits denoting `tv_nsec`, and the
seconds field denotes `tv_sec`. -/
theorem claim_C9_print_format (t : Ctimer) (l : List Char)
    (h0 : 0 ≤ t.elapsed.tv_sec) (hv : t.elapsed.Valid) (hnl : '\n' ∉ l) :
    (l ≠ [] →
      ctimer_print t (some l)
        = "Time(".toList ++ l ++ ") = ".toList ++ natDec t.elapsed.tv_sec.toNat
            ++ '.' :: fmt09ld t.elapsed.tv_nsec ++ " sec\n".toList ∧
      (ctimer_print t (some l)).count '\n' = 1) ∧
    ctimer_print t none
      = "Time = ".toList ++ natDec t.elapsed.tv_sec.toNat
          ++ '.' :: fmt09ld t.elapsed.tv_nsec ++ " sec\n".toList ∧
    ctimer_print t (some [])
      = "Time = ".toList ++ natDec t.elapsed.tv_sec.toNat
          ++ '.' :: fmt09ld t.elapsed.tv_nsec ++ " sec\n".toList ∧
    (ctimer_print t none).count '\n' = 1 ∧
    (fmt09ld t.elapsed.tv_nsec).length = 9 ∧
    (∀ c ∈ fmt09ld t.elapsed.tv_nsec, c.isDigit = true) ∧
    decVal (fmt09ld t.elapsed.tv_nsec) = t.elapsed.tv_nsec.toNat ∧
    decVal (natDec t.elapsed.tv_sec.toNat) = t.elapsed.tv_sec.toNat := by
  obtain ⟨hv1, hv2⟩ := hv
  have hfrac := fmt09ld_spec t.elapsed.tv_nsec hv1 (by
    have := hv2
    simp only [_NSEC_PER_SEC] at this
    omega)
  have hnodigit : ∀ m : List Char, (∀ c ∈ m, c.isDigit = true) → '\n' ∉ m := by
    intro m hm hmem
    have := hm '\n' hmem
    simp [Char.isDigit] at this
  have hsecd := natDec_digits t.elapsed.tv_sec.toNat
  have hcount : ∀ lbl : Option (List Char),
      (∀ pre0 : List Char, ctimer_print t lbl = pre0
        ++ fmt_ld t.elapsed.tv_sec ++ '.' :: fmt09ld t.elapsed.tv_nsec ++ " sec\n".toList →
        pre0.count '\n' = 0 → (ctimer_print t lbl).count '\n' = 1) := by
    intro lbl pre0 heq hpre
    rw [heq]
    simp only [List.count_append, hpre]
    rw [fmt_ld_nonneg _ h0]
    have c1 : (natDec t.elapsed.tv_sec.toNat).count '\n' = 0 :=
      List.count_eq_zero.mpr (hnodigit _ hsecd)
    have c2 : (fmt09ld t.elapsed.tv_nsec).count '\n' = 0 :=
      List.count_eq_zero.mpr (hnodigit _ hfrac.2.1)
    rw [c1]
    simp [List.count_cons, c2]
  refine ⟨?_, ?_, ?_, ?_, hfrac.1, hfrac.2.1, hfrac.2.2, natDec_val _⟩
  · intro hl
    have heq : ctimer_print t (some l)
        = ("Time(".toList ++ l ++ ") = ".toList)
          ++ fmt_ld t.elapsed.tv_sec ++ '.' :: fmt09ld t.elapsed.tv_nsec
          ++ " sec\n".toList := by
      rw [ctimer_print]
      rw [if_pos hl]
    constructor
    · rw [heq, fmt_ld_nonneg _ h0]
    · refine hcount (some l) _ heq ?_
      simp only [List.count_append]
      have : l.count '\n' = 0 := List.count_eq_zero.mpr hnl
      rw [this]
      rfl
  · rw [ctimer_print, fmt_ld_nonneg _ h0]
  · rw [ctimer_print]
    rw [if_neg (by simp)]
    rw [fmt_ld_nonneg _ h0]
  · refine hcount none ("Time = ".toList) ?_ ?_
    · rw [ctimer_print]
    · rfl

/-- Witness for C9 at elapsed `(2 s, 30 ns)` and label `"fib"`. -/
theorem claim_C9_witness :
    ((0 : Int) ≤ 2 ∧ Timespec.Valid ⟨2, 30⟩ ∧ '\n' ∉ ['f', 'i', 'b']) ∧
    ((['f', 'i', 'b'] ≠ ([] : List Char) →
      ctimer_print ⟨⟨0, 0⟩, ⟨0, 0⟩, ⟨2, 30⟩⟩ (some ['f', 'i', 'b'])
        = "Time(".toList ++ ['f', 'i', 'b'] ++ ") = ".toList
            ++ natDec (Int.toNat 2) ++ '.' :: fmt09ld 30 ++ " sec\n".toList ∧
      (ctimer_print ⟨⟨0, 0⟩, ⟨0, 0⟩, ⟨2, 30⟩⟩ (some ['f', 'i', 'b'])).count '\n' = 1) ∧
    ctimer_print ⟨⟨0, 0⟩, ⟨0, 0⟩, ⟨2, 30⟩⟩ none
      = "Time = ".toList ++ natDec (Int.toNat 2) ++ '.' :: fmt09ld 30 ++ " sec\n".toList ∧
    ctimer_print ⟨⟨0, 0⟩, ⟨0, 0⟩, ⟨2, 30⟩⟩ (some [])
      = "Time = ".toList ++ natDec (Int.toNat 2) ++ '.' :: fmt09ld 30 ++ " sec\n".toList ∧
    (ctimer_print ⟨⟨0, 0⟩, ⟨0, 0⟩, ⟨2, 30⟩⟩ none).count '\n' = 1 ∧
    (fmt09ld 30).length = 9 ∧
    (∀ c ∈ fmt09ld 30, c.isDigit = true) ∧
    decVal (fmt09ld 30) = Int.toNat 30 ∧
    decVal (natDec (Int.toNat 2)) = Int.toNat 2) :=
  ⟨⟨by norm_num, by decide, by decide⟩,
   claim_C9_print_format ⟨⟨0, 0⟩, ⟨0, 0⟩, ⟨2, 30⟩⟩ ['f', 'i', 'b']
     (by norm_num) (by decide) (by decide)⟩

/-- Safety check of a candidate queen `x` against the already-placed queens
listed newest-first, `d` being the column distance to the head of the list.
This is the part of `ok (a ++ [x])` that concerns the new queen; `ok_append`
below proves that factorisation. -/
def safeRev (x : Int) (d : Int) : List Int → Bool
  | [] => true
  | p :: rest =>
    !(x == p || x == p - d || x == p + d) && safeRev x (d + 1) rest

/-- Evaluation sibling of `nqueensF`, used only to compute the golden values:
the board is kept newest-first and only the new queen is checked (the rest of
the board is conflict-free by construction, so the C code's full `ok`
recheck is redundant there).  `nqueensF_eq_fast` proves it extensionally
equal to `nqueensF` on conflict-free boards. -/
def nqueensFastF (n : Nat) : Nat → Nat → List Int → Int
  | fuel, j, r =>
    if n == j then 1
    else match fuel with
      | 0 => 0
      | fuel + 1 =>
        ((List.range n).map (fun (i : Nat) =>
          if safeRev ((i : Nat) : Int) 1 r then nqueensFastF n fuel (j + 1) (((i : Nat) : Int) :: r)
          else 0)).sum

lemma okFrom_append (p x : Int) (l : List Int) : ∀ d : Int,
    okFrom p d (l ++ [x])
      = (okFrom p d l && !(x == p || x == p - (d + l.length) || x == p + (d + l.length))) := by
  induction l with
  | nil =>
      intro d
      rw [List.nil_append, okFrom, okFrom, okFrom]
      simp only [List.length_nil, Nat.cast_zero, add_zero, Bool.true_and]
      cases hx : (x == p || x == p - d || x == p + d) <;> rfl
  | cons q t ih =>
      intro d
      rw [List.cons_append, okFrom]
      rw [okFrom]
      split
      · rfl
      · rw [ih (d + 1)]
        have hlen : d + 1 + (t.length : Int) = d + ((q :: t).length : Int) := by
          simp only [List.length_cons]
          push_cast
          ring
        rw [hlen]

lemma safeRev_append (x p : Int) (l : List Int) : ∀ d : Int,
    safeRev x d (l ++ [p])
      = (safeRev x d l && !(x == p || x == p - (d + l.length) || x == p + (d + l.length))) := by
  induction l with
  | nil =>
      intro d
      rw [List.nil_append, safeRev, safeRev, safeRev]
      simp only [List.length_nil, Nat.cast_zero, add_zero]
      cases hx : (x == p || x == p - d || x == p + d) <;> rfl
  | cons q t ih =>
      intro d
      rw [List.cons_append, safeRev, safeRev, ih (d + 1)]
      have hlen : d + 1 + (t.length : Int) = d + ((q :: t).length : Int) := by
        simp only [List.length_cons]
        push_cast
        ring
      rw [hlen, Bool.and_assoc]

/-- Appending one queen: the full pairwise check of `ok` factors into the old
check and the new queen's check against the reversed board. -/
lemma ok_append (x : Int) (a : List Int) :
    ok (a ++ [x]) = (ok a && safeRev x 1 a.reverse) := by
  induction a with
  | nil => simp [ok, okFrom, safeRev]
  | cons p rest ih =>
      rw [List.cons_append, ok, ok, okFrom_append, ih]
      rw [List.reverse_cons, safeRev_append, List.length_reverse]
      cases okFrom p 1 rest <;> cases ok rest <;>
        cases safeRev x 1 rest.reverse <;>
        cases (x == p || x == p - (1 + (rest.length : Int))
          || x == p + (1 + (rest.length : Int))) <;> rfl

/-- On conflict-free boards the evaluation sibling agrees with the literal
translation of the C recursion. -/
lemma nqueensF_eq_fast (n : Nat) : ∀ (fuel j : Nat) (a : List Int), ok a = true →
    nqueensF n fuel j a = nqueensFastF n fuel j a.reverse := by
  intro fuel
  induction fuel with
  | zero =>
      intro j a ha
      rw [nqueensF, nqueensFastF]
  | succ fuel ih =>
      intro j a ha
      rw [nqueensF, nqueensFastF]
      split
      · rfl
      · refine congrArg List.sum (List.map_congr_left ?_)
        intro i hi
        simp only []
        rw [ok_append, ha, Bool.true_and]
        split
        · rename_i hsafe
          rw [ih (j + 1) (a ++ [((i : Nat) : Int)]) (by rw [ok_append, ha, hsafe]; rfl)]
          rw [List.reverse_append]
          rfl
        · rfl

/-- Column bitmask of a (newest-first) board: bit `p` is set iff some queen
occupies column `p`. -/
def colM : List Int → Nat
  | [] => 0
  | p :: t => colM t ||| 2 ^ p.toNat

/-- Left-diagonal bitmask relative to the current row: a queen `d` rows up in
column `p` sets bit `p + d`. -/
def ldM : List Int → Nat
  | [] => 0
  | p :: t => (ldM t ||| 2 ^ p.toNat) <<< 1

/-- Right-diagonal bitmask relative to the current row: a queen `d` rows up in
column `p` sets bit `p - d` (when nonnegative). -/
def rdM : List Int → Nat
  | [] => 0
  | p :: t => (rdM t ||| 2 ^ p.toNat) >>> 1

/-- Structural summation loop of the bitmask search: adds `f i` for every
candidate column `i < m` whose bit is clear in the occupancy mask `occ`. -/
def nqSumB (occ : Nat) (f : Nat → Nat) : Nat → Nat
  | 0 => 0
  | i + 1 => nqSumB occ f i + (if occ.testBit i then 0 else f i)

/-- Bitmask evaluation sibling of `nqueensFastF`, used only to compute the
golden values quickly: the three masks summarise exactly the conflicts
`safeRev` checks (`safeRev_eq_bit`), and `nqueensFastF_eq_bit` proves the
searches equal. -/
def nqRowB (n : Nat) : Nat → Nat → Nat → Nat → Nat
  | 0, _, _, _ => 1
  | fuel + 1, cols, ld, rd =>
      nqSumB (cols ||| ld ||| rd)
        (fun i => nqRowB n fuel (cols ||| 2 ^ i) ((ld ||| 2 ^ i) <<< 1) ((rd ||| 2 ^ i) >>> 1))
        n

lemma colM_testBit (x : Nat) : ∀ (r : List Int), (∀ p ∈ r, 0 ≤ p) →
    ((colM r).testBit x = true ↔ ((x : Nat) : Int) ∈ r) := by
  intro r
  induction r with
  | nil => simp [colM]
  | cons p t ih =>
      intro hpos
      rw [colM, Nat.testBit_or, Nat.testBit_two_pow]
      have hp : 0 ≤ p := hpos p (List.mem_cons_self p t)
      have ht := ih (fun q hq => hpos q (List.mem_cons_of_mem p hq))
      simp only [Bool.or_eq_true, decide_eq_true_eq, List.mem_cons, ht]
      constructor
      · rintro (h | h)
        · right; exact h
        · left; omega
      · rintro (h | h)
        · right; omega
        · left; exact h

lemma ldM_testBit : ∀ (r : List Int) (x : Nat), (∀ p ∈ r, 0 ≤ p) →
    ((ldM r).testBit x = true
      ↔ ∃ k, ∃ h : k < r.length, r.get ⟨k, h⟩ + ((k : Int) + 1) = ((x : Nat) : Int)) := by
  intro r
  induction r with
  | nil =>
      intro x _
      simp [ldM]
  | cons p t ih =>
      intro x hpos
      have hp : 0 ≤ p := hpos p (List.mem_cons_self p t)
      have hpt : ∀ q ∈ t, 0 ≤ q := fun q hq => hpos q (List.mem_cons_of_mem p hq)
      rw [ldM, Nat.testBit_shiftLeft]
      match x with
      | 0 =>
          rw [show decide ((0 : Nat) ≥ 1) = false from rfl, Bool.false_and]
          constructor
          · intro h
            cases h
          · rintro ⟨k, hk, hk2⟩
            exfalso
            match k, hk with
            | 0, hk =>
                have hq := hpos _ (List.get_mem (p :: t) 0 hk)
                omega
            | k + 1, hk =>
                have hq := hpos _ (List.get_mem (p :: t) (k + 1) hk)
                omega
      | y + 1 =>
          rw [show decide ((y + 1 : Nat) ≥ 1) = true from by simp, Bool.true_and,
            show y + 1 - 1 = y from rfl, Nat.testBit_or, Nat.testBit_two_pow]
          have hy := ih y hpt
          simp only [Bool.or_eq_true, decide_eq_true_eq]
          constructor
          · rintro (h | h)
            · obtain ⟨k, hk, hk2⟩ := hy.mp h
              refine ⟨k + 1, by simpa using hk, ?_⟩
              simp only [List.get] at hk2 ⊢
              push_cast at hk2 ⊢
              omega
            · refine ⟨0, by simp, ?_⟩
              simp only [List.get]
              push_cast
              omega
          · rintro ⟨k, hk, hk2⟩
            match k, hk with
            | 0, hk =>
                right
                simp only [List.get] at hk2
                push_cast at hk2
                omega
            | k + 1, hk =>
                left
                refine hy.mpr ⟨k, by simpa using hk, ?_⟩
                simp only [List.get] at hk2 ⊢
                push_cast at hk2 ⊢
                omega

lemma rdM_testBit : ∀ (r : List Int) (x : Nat), (∀ p ∈ r, 0 ≤ p) →
    ((rdM r).testBit x = true
      ↔ ∃ k, ∃ h : k < r.length, r.get ⟨k, h⟩ - ((k : Int) + 1) = ((x : Nat) : Int)) := by
  intro r
  induction r with
  | nil =>
      intro x _
      simp [rdM]
  | cons p t ih =>
      intro x hpos
      have hp : 0 ≤ p := hpos p (List.mem_cons_self p t)
      have hpt : ∀ q ∈ t, 0 ≤ q := fun q hq => hpos q (List.mem_cons_of_mem p hq)
      rw [rdM, Nat.testBit_shiftRight, Nat.testBit_or, Nat.testBit_two_pow]
      have hx := ih (1 + x) hpt
      simp only [Bool.or_eq_true, decide_eq_true_eq]
      constructor
      · rintro (h | h)
        · obtain ⟨k, hk, hk2⟩ := hx.mp h
          refine ⟨k + 1, by simpa using hk, ?_⟩
          simp only [List.get] at hk2 ⊢
          push_cast at hk2 ⊢
          omega
        · refine ⟨0, by simp, ?_⟩
          simp only [List.get]
          push_cast
          omega
      · rintro ⟨k, hk, hk2⟩
        match k, hk with
        | 0, hk =>
            right
            simp only [List.get] at hk2
            push_cast at hk2
            omega
        | k + 1, hk =>
            left
            refine hx.mpr ⟨k, by simpa using hk, ?_⟩
            simp only [List.get] at hk2 ⊢
            push_cast at hk2 ⊢
            omega

/-- Positional reading of `safeRev`: the candidate conflicts with no placed
queen at any distance. -/
lemma safeRev_iff (x : Int) : ∀ (r : List Int) (d : Int),
    (safeRev x d r = true
      ↔ ∀ k (h : k < r.length),
          ¬(x = r.get ⟨k, h⟩ ∨ x = r.get ⟨k, h⟩ - (d + k) ∨ x = r.get ⟨k, h⟩ + (d + k))) := by
  intro r
  induction r with
  | nil =>
      intro d
      simp [safeRev]
  | cons p t ih =>
      intro d
      rw [safeRev, Bool.and_eq_true, Bool.not_eq_true']
      rw [ih (d + 1)]
      constructor
      · rintro ⟨h1, h2⟩ k hk
        match k, hk with
        | 0, hk =>
            simp only [List.get, Nat.cast_zero, add_zero]
            simp only [Bool.or_eq_false_iff, beq_eq_false_iff_ne, ne_eq] at h1
            tauto
        | k + 1, hk =>
            have := h2 k (by simpa using hk)
            simp only [List.get] at this ⊢
            push_cast at this ⊢
            have harith : d + 1 + (k : Int) = d + ((k : Int) + 1) := by ring
            rw [harith] at this
            exact this
      · intro h
        constructor
        · have h0 := h 0 (by simp)
          simp only [List.get, Nat.cast_zero, add_zero] at h0
          simp only [Bool.or_eq_false_iff, beq_eq_false_iff_ne, ne_eq]
          tauto
        · intro k hk
          have := h (k + 1) (by simpa using hk)
          simp only [List.get] at this ⊢
          push_cast at this ⊢
          have harith : d + ((k : Int) + 1) = d + 1 + (k : Int) := by ring
          rw [harith] at this
          exact this

/-- The bitmask test coincides with `safeRev` on nonnegative boards. -/
lemma safeRev_eq_bit (r : List Int) (hpos : ∀ p ∈ r, 0 ≤ p) (x : Nat) :
    safeRev ((x : Nat) : Int) 1 r
      = !((colM r).testBit x || (ldM r).testBit x || (rdM r).testBit x) := by
  rw [Bool.eq_iff_iff, Bool.not_eq_true', Bool.or_eq_false_iff, Bool.or_eq_false_iff]
  rw [safeRev_iff]
  constructor
  · intro h
    refine ⟨⟨?_, ?_⟩, ?_⟩
    · rw [Bool.eq_false_iff, ne_eq, colM_testBit x r hpos]
      rw [List.mem_iff_get]
      rintro ⟨⟨k, hk⟩, hget⟩
      exact h k hk (Or.inl hget.symm)
    · rw [Bool.eq_false_iff, ne_eq, ldM_testBit r x hpos]
      rintro ⟨k, hk, hk2⟩
      refine h k hk (Or.inr (Or.inr ?_))
      omega
    · rw [Bool.eq_false_iff, ne_eq, rdM_testBit r x hpos]
      rintro ⟨k, hk, hk2⟩
      refine h k hk (Or.inr (Or.inl ?_))
      omega
  · rintro ⟨⟨hc, hl⟩, hr⟩ k hk hconf
    rw [Bool.eq_false_iff, ne_eq, colM_testBit x r hpos, List.mem_iff_get] at hc
    rw [Bool.eq_false_iff, ne_eq, ldM_testBit r x hpos] at hl
    rw [Bool.eq_false_iff, ne_eq, rdM_testBit r x hpos] at hr
    rcases hconf with h | h | h
    · exact hc ⟨⟨k, hk⟩, h.symm⟩
    · exact hr ⟨k, hk, by omega⟩
    · exact hl ⟨k, hk, by omega⟩

lemma nqSumB_eq (occ : Nat) (f : Nat → Nat) (g : Nat → Int)
    (h : ∀ i, g i = if occ.testBit i = true then 0 else ((f i : Nat) : Int)) :
    ∀ m : Nat, ((List.range m).map g).sum = ((nqSumB occ f m : Nat) : Int) := by
  intro m
  induction m with
  | zero => simp [nqSumB]
  | succ m ih =>
      rw [List.range_succ, List.map_append, List.sum_append, ih, nqSumB]
      rw [List.map_cons, List.map_nil, List.sum_cons, List.sum_nil, h m]
      split
      · push_cast
        ring
      · push_cast
        ring

/-- On nonnegative boards the bitmask search computes `nqueensFastF`. -/
lemma nqueensFastF_eq_bit (n : Nat) : ∀ (fuel j : Nat) (r : List Int),
    j + fuel = n → (∀ p ∈ r, 0 ≤ p) →
    nqueensFastF n fuel j r = ((nqRowB n fuel (colM r) (ldM r) (rdM r) : Nat) : Int) := by
  intro fuel
  induction fuel with
  | zero =>
      intro j r hj hpos
      rw [nqueensFastF, nqRowB]
      rw [if_pos (show (n == j) = true by simp only [beq_iff_eq]; omega)]
      norm_num
  | succ fuel ih =>
      intro j r hj hpos
      rw [nqueensFastF, nqRowB]
      rw [if_neg (show ¬ (n == j) = true by simp only [beq_iff_eq]; omega)]
      refine nqSumB_eq _ _ _ ?_ n
      intro i
      have hguard : safeRev ((i : Nat) : Int) 1 r
          = !((colM r ||| ldM r ||| rdM r).testBit i) := by
        rw [safeRev_eq_bit r hpos i, Nat.testBit_or, Nat.testBit_or]
      rw [hguard]
      cases htb : (colM r ||| ldM r ||| rdM r).testBit i with
      | true => rfl
      | false =>
          simp only [Bool.not_false, if_true]
          have hpos2 : ∀ p ∈ (((i : Nat) : Int) :: r), 0 ≤ p := by
            intro q hq
            rcases List.mem_cons.mp hq with hq | hq
            · rw [hq]
              positivity
            · exact hpos q hq
          rw [ih (j + 1) (((i : Nat) : Int) :: r) (by omega) hpos2]
          rw [show colM (((i : Nat) : Int) :: r) = colM r ||| 2 ^ i from by
              rw [colM, Int.toNat_natCast],
            show ldM (((i : Nat) : Int) :: r) = (ldM r ||| 2 ^ i) <<< 1 from by
              rw [ldM, Int.toNat_natCast],
            show rdM (((i : Nat) : Int) :: r) = (rdM r ||| 2 ^ i) >>> 1 from by
              rw [rdM, Int.toNat_natCast]]
          simp

set_option maxRecDepth 100000 in
set_option maxHeartbeats 2000000 in
lemma n9col0 : nqRowB 9 8 (0 ||| 2 ^ 0) ((0 ||| 2 ^ 0) <<< 1) ((0 ||| 2 ^ 0) >>> 1) = 28 := by
  decide

set_option maxRecDepth 100000 in
set_option maxHeartbeats 2000000 in
lemma n9col1 : nqRowB 9 8 (0 ||| 2 ^ 1) ((0 ||| 2 ^ 1) <<< 1) ((0 ||| 2 ^ 1) >>> 1) = 30 := by
  decide

set_option maxRecDepth 100000 in
set_option maxHeartbeats 2000000 in
lemma n9col2 : nqRowB 9 8 (0 ||| 2 ^ 2) ((0 ||| 2 ^ 2) <<< 1) ((0 ||| 2 ^ 2) >>> 1) = 47 := by
  decide

set_option maxRecDepth 100000 in
set_option maxHeartbeats 2000000 in
lemma n9col3 : nqRowB 9 8 (0 ||| 2 ^ 3) ((0 ||| 2 ^ 3) <<< 1) ((0 ||| 2 ^ 3) >>> 1) = 44 := by
  decide

set_option maxRecDepth 100000 in
set_option maxHeartbeats 2000000 in
lemma n9col4 : nqRowB 9 8 (0 ||| 2 ^ 4) ((0 ||| 2 ^ 4) <<< 1) ((0 ||| 2 ^ 4) >>> 1) = 54 := by
  decide

set_option maxRecDepth 100000 in
set_option maxHeartbeats 2000000 in
lemma n9col5 : nqRowB 9 8 (0 ||| 2 ^ 5) ((0 ||| 2 ^ 5) <<< 1) ((0 ||| 2 ^ 5) >>> 1) = 44 := by
  decide

set_option maxRecDepth 100000 in
set_option maxHeartbeats 2000000 in
lemma n9col6 : nqRowB 9 8 (0 ||| 2 ^ 6) ((0 ||| 2 ^ 6) <<< 1) ((0 ||| 2 ^ 6) >>> 1) = 47 := by
  decide

set_option maxRecDepth 100000 in
set_option maxHeartbeats 2000000 in
lemma n9col7 : nqRowB 9 8 (0 ||| 2 ^ 7) ((0 ||| 2 ^ 7) <<< 1) ((0 ||| 2 ^ 7) >>> 1) = 30 := by
  decide

set_option maxRecDepth 100000 in
set_option maxHeartbeats 2000000 in
lemma n9col8 : nqRowB 9 8 (0 ||| 2 ^ 8) ((0 ||| 2 ^ 8) <<< 1) ((0 ||| 2 ^ 8) >>> 1) = 28 := by
  decide

lemma nqSumB_zero_expand (f : Nat → Nat) :
    nqSumB 0 f 9 = 0 + f 0 + f 1 + f 2 + f 3 + f 4 + f 5 + f 6 + f 7 + f 8 := rfl

lemma nqRowB_nine : nqRowB 9 9 0 0 0 = 352 := by
  have h0 : nqRowB 9 9 0 0 0
      = nqSumB 0 (fun i => nqRowB 9 8 (0 ||| 2 ^ i)
          ((0 ||| 2 ^ i) <<< 1) ((0 ||| 2 ^ i) >>> 1)) 9 := rfl
  rw [h0, nqSumB_zero_expand]
  simp only [n9col0, n9col1, n9col2, n9col3, n9col4, n9col5, n9col6, n9col7, n9col8]

set_option maxRecDepth 100000 in
set_option maxHeartbeats 2000000 in
/-- C5: for every board size `n` in `{4,...,9}`, `nqueens (n, 0, a)` (the
board array `a` is read only in its first `j = 0` cells, so its contents are
irrelevant and it is modelled as the empty list of placed queens) returns
the corresponding known solution count `2, 10, 4, 40, 92, 352`. -/
theorem claim_C5_nqueens_golden :
    nqueens 4 0 [] = 2 ∧ nqueens 5 0 [] = 10 ∧ nqueens 6 0 [] = 4 ∧
    nqueens 7 0 [] = 40 ∧ nqueens 8 0 [] = 92 ∧ nqueens 9 0 [] = 352 := by
  refine ⟨?_, ?_, ?_, ?_, ?_, ?_⟩
  · rw [show nqueens 4 0 [] = nqueensFastF 4 4 0 [] from nqueensF_eq_fast 4 4 0 [] rfl,
      nqueensFastF_eq_bit 4 4 0 [] (by omega) (by intro p h; cases h)]
    decide
  · rw [show nqueens 5 0 [] = nqueensFastF 5 5 0 [] from nqueensF_eq_fast 5 5 0 [] rfl,
      nqueensFastF_eq_bit 5 5 0 [] (by omega) (by intro p h; cases h)]
    decide
  · rw [show nqueens 6 0 [] = nqueensFastF 6 6 0 [] from nqueensF_eq_fast 6 6 0 [] rfl,
      nqueensFastF_eq_bit 6 6 0 [] (by omega) (by intro p h; cases h)]
    decide
  · rw [show nqueens 7 0 [] = nqueensFastF 7 7 0 [] from nqueensF_eq_fast 7 7 0 [] rfl,
      nqueensFastF_eq_bit 7 7 0 [] (by omega) (by intro p h; cases h)]
    decide
  · rw [show nqueens 8 0 [] = nqueensFastF 8 8 0 [] from nqueensF_eq_fast 8 8 0 [] rfl,
      nqueensFastF_eq_bit 8 8 0 [] (by omega) (by intro p h; cases h)]
    decide
  · rw [show nqueens 9 0 [] = nqueensFastF 9 9 0 [] from nqueensF_eq_fast 9 9 0 [] rfl,
      nqueensFastF_eq_bit 9 9 0 [] (by omega) (by intro p h; cases h)]
    rw [show colM ([] : List Int) = 0 from rfl, show ldM ([] : List Int) = 0 from rfl,
      show rdM ([] : List Int) = 0 from rfl, nqRowB_nine]
    norm_num

end CilkTutorial
